import Mathlib

/-!
Verification of the ledger-account core of the Engineering-Team repository
(`src/engineering_team/output/accounts.py`), checked against its
natural-language specification.

Modelling conventions:
- Monetary amounts are exact rationals (`ℚ`), the exact decimal arithmetic
  the specification mandates; quantities are `Int` (Python integers).
- The Python `dict` `holdings` is an insertion-ordered association list
  `List (String × Int)`: `hGet`/`hSet`/`hRemove` mirror `d.get(k, 0)`,
  `d[k] = v` (update in place, append if absent) and `del d[k]`.
- A raised `ValueError msg` is modelled by returning the post-state paired
  with `some msg`; a normal return pairs the post-state with `none`.  The
  returned account reflects exactly the mutations performed before the
  `raise`/`return`, so "no state change on failure" is a theorem, not an
  assumption.
- `datetime.now()` timestamps are not modelled (real time); no claim
  depends on them.
-/

/-- The kind tag of a transaction record (the `type` field in the source). -/
inductive TxKind where
  | deposit
  | withdraw
  | buy
  | sell
  deriving DecidableEq

/-- A transaction record as appended by the four mutating operations:
`symbol` and `quantity` are present only for `buy`/`sell`. -/
structure Transaction where
  kind : TxKind
  amount : ℚ
  symbol : Option String
  quantity : Option Int
  deriving DecidableEq

/-- The account state: fields of `Account.__init__` in the source
(timestamps aside). -/
structure Account where
  user_id : String
  cash_balance : ℚ
  holdings : List (String × Int)
  transactions : List Transaction
  initial_deposit : ℚ
  deriving DecidableEq

/-- `Account.__init__`: zero balance, empty holdings and transactions. -/
def Account.create (uid : String) : Account :=
  { user_id := uid
    cash_balance := 0
    holdings := []
    transactions := []
    initial_deposit := 0 }

/-- `get_share_price`: the fixed price catalog; `none` models the raised
`ValueError('Unsupported symbol')`. -/
def get_share_price (symbol : String) : Option ℚ :=
  if symbol = "AAPL" then some 150
  else if symbol = "TSLA" then some 700
  else if symbol = "GOOGL" then some 2800
  else none

/-- Python `holdings.get(symbol, 0)`: value of the first entry with the
given key, `0` when absent. -/
def hGet : List (String × Int) → String → Int
  | [], _ => 0
  | (k, v) :: rest, s => if k = s then v else hGet rest s

/-- Python `holdings[symbol] = v`: replace the first entry with the given
key in place, append a new entry when absent. -/
def hSet : List (String × Int) → String → Int → List (String × Int)
  | [], s, v => [(s, v)]
  | (k, w) :: rest, s, v => if k = s then (s, v) :: rest else (k, w) :: hSet rest s v

/-- Python `del holdings[symbol]`: drop the first entry with the given key. -/
def hRemove : List (String × Int) → String → List (String × Int)
  | [], _ => []
  | (k, w) :: rest, s => if k = s then rest else (k, w) :: hRemove rest s

/-- `Account.deposit`. -/
def Account.deposit (a : Account) (amount : ℚ) : Account × Option String :=
  if amount ≤ 0 then (a, some "Deposit amount must be positive.")
  else
    ({ a with
        cash_balance := a.cash_balance + amount
        initial_deposit := a.initial_deposit + amount
        transactions := a.transactions ++
          [{ kind := TxKind.deposit, amount := amount, symbol := none, quantity := none }] },
     none)

/-- `Account.withdraw`. -/
def Account.withdraw (a : Account) (amount : ℚ) : Account × Option String :=
  if amount ≤ 0 then (a, some "Withdrawal amount must be positive.")
  else if a.cash_balance - amount < 0 then
    (a, some "Cannot withdraw more than the available balance.")
  else
    ({ a with
        cash_balance := a.cash_balance - amount
        transactions := a.transactions ++
          [{ kind := TxKind.withdraw, amount := amount, symbol := none, quantity := none }] },
     none)

/-- `Account.buy_shares`. -/
def Account.buy_shares (a : Account) (symbol : String) (quantity : Int) :
    Account × Option String :=
  if quantity ≤ 0 then (a, some "Quantity must be a positive integer.")
  else
    match get_share_price symbol with
    | none => (a, some "Unsupported symbol")
    | some price =>
      let total_cost : ℚ := price * (quantity : ℚ)
      if total_cost > a.cash_balance then (a, some "Insufficient funds to buy shares.")
      else
        ({ a with
            cash_balance := a.cash_balance - total_cost
            holdings := hSet a.holdings symbol (hGet a.holdings symbol + quantity)
            transactions := a.transactions ++
              [{ kind := TxKind.buy, amount := total_cost,
                 symbol := some symbol, quantity := some quantity }] },
         none)

/-- `Account.sell_shares`. -/
def Account.sell_shares (a : Account) (symbol : String) (quantity : Int) :
    Account × Option String :=
  if quantity ≤ 0 then (a, some "Quantity must be a positive integer.")
  else if hGet a.holdings symbol < quantity then
    (a, some "Insufficient shares to sell.")
  else
    match get_share_price symbol with
    | none => (a, some "Unsupported symbol")
    | some price =>
      let total_proceeds : ℚ := price * (quantity : ℚ)
      let newQty : Int := hGet a.holdings symbol - quantity
      ({ a with
          cash_balance := a.cash_balance + total_proceeds
          holdings :=
            if newQty = 0 then hRemove a.holdings symbol
            else hSet a.holdings symbol newQty
          transactions := a.transactions ++
            [{ kind := TxKind.sell, amount := total_proceeds,
               symbol := some symbol, quantity := some quantity }] },
       none)

/-- `Account.get_holdings`: the comprehension keeping only entries with
positive quantity. -/
def Account.get_holdings (a : Account) : List (String × Int) :=
  a.holdings.filter (fun p => decide (0 < p.2))

/-- The priced value of a holdings list, `Σ quantity * price(symbol)`;
errors at the first unpriced symbol, as the loop in
`get_portfolio_value` does. -/
def holdingsValue : List (String × Int) → Except String ℚ
  | [] => Except.ok 0
  | (s, q) :: rest =>
    match get_share_price s with
    | none => Except.error "Unsupported symbol"
    | some p =>
      match holdingsValue rest with
      | Except.error e => Except.error e
      | Except.ok v => Except.ok ((q : ℚ) * p + v)

/-- `Account.get_portfolio_value`: cash plus the priced value of holdings. -/
def Account.get_portfolio_value (a : Account) : Except String ℚ :=
  match holdingsValue a.holdings with
  | Except.error e => Except.error e
  | Except.ok v => Except.ok (a.cash_balance + v)

/-- `sum(t['amount'] for t in transactions if t['type'] == 'withdraw')`. -/
def withdrawSum : List Transaction → ℚ
  | [] => 0
  | t :: ts => (if t.kind = TxKind.withdraw then t.amount else 0) + withdrawSum ts

/-- The sum of the `amount` fields of all transactions of kind `deposit`
(the spec-side expression `lifetime_deposits` is claimed to equal). -/
def depositSum : List Transaction → ℚ
  | [] => 0
  | t :: ts => (if t.kind = TxKind.deposit then t.amount else 0) + depositSum ts

/-- `Account.get_profit_loss`: portfolio value minus net deposits. -/
def Account.get_profit_loss (a : Account) : Except String ℚ :=
  let net_deposits : ℚ := a.initial_deposit - withdrawSum a.transactions
  match a.get_portfolio_value with
  | Except.error e => Except.error e
  | Except.ok v => Except.ok (v - net_deposits)

/-- `Account.get_transactions` (the copy is identity in a pure setting). -/
def Account.get_transactions (a : Account) : List Transaction :=
  a.transactions

/-- Python `str.upper()` on the ASCII symbols in play: upper-case every
character. -/
def pyUpper (s : String) : String :=
  ⟨s.data.map Char.toUpper⟩

/-- `buy_shares` of the gradio layer (`app.py`): upper-cases the symbol
before calling the core. -/
def app_buy_shares (a : Account) (symbol : String) (quantity : Int) :
    Account × Option String :=
  a.buy_shares (pyUpper symbol) quantity

/-- `sell_shares` of the gradio layer (`app.py`): upper-cases the symbol
before calling the core. -/
def app_sell_shares (a : Account) (symbol : String) (quantity : Int) :
    Account × Option String :=
  a.sell_shares (pyUpper symbol) quantity

/-- The states an account can be in after any sequence of the four
operations (failed calls included: the first component of the result is
the post-state of the call whether it succeeded or not). -/
inductive Reachable : Account → Prop where
  | init (uid : String) : Reachable (Account.create uid)
  | deposit {a : Account} (amount : ℚ) :
      Reachable a → Reachable (a.deposit amount).1
  | withdraw {a : Account} (amount : ℚ) :
      Reachable a → Reachable (a.withdraw amount).1
  | buy {a : Account} (symbol : String) (quantity : Int) :
      Reachable a → Reachable (a.buy_shares symbol quantity).1
  | sell {a : Account} (symbol : String) (quantity : Int) :
      Reachable a → Reachable (a.sell_shares symbol quantity).1

/-! ### Association-list lemmas -/

lemma hGet_nonneg : ∀ (l : List (String × Int)), (∀ p ∈ l, 0 < p.2) →
    ∀ s, 0 ≤ hGet l s
  | [], _, _ => le_refl 0
  | (k, v) :: tl, h, s => by
    simp only [hGet]
    split
    · exact le_of_lt (h (k, v) (List.mem_cons_self _ _))
    · exact hGet_nonneg tl (fun p hp => h p (List.mem_cons_of_mem _ hp)) s

lemma mem_hSet : ∀ {l : List (String × Int)} {s : String} {v : Int}
    {x : String × Int}, x ∈ hSet l s v → x = (s, v) ∨ x ∈ l := by
  intro l
  induction l with
  | nil =>
    intro s v x h
    simp only [hSet, List.mem_singleton] at h
    exact Or.inl h
  | cons hd tl ih =>
    intro s v x h
    obtain ⟨k, w⟩ := hd
    simp only [hSet] at h
    by_cases hk : k = s
    · rw [if_pos hk] at h
      rcases List.mem_cons.mp h with h1 | h2
      · exact Or.inl h1
      · exact Or.inr (List.mem_cons_of_mem _ h2)
    · rw [if_neg hk] at h
      rcases List.mem_cons.mp h with h1 | h2
      · exact Or.inr (h1 ▸ List.mem_cons_self _ _)
      · rcases ih h2 with h3 | h4
        · exact Or.inl h3
        · exact Or.inr (List.mem_cons_of_mem _ h4)

lemma hGet_hSet_self : ∀ (l : List (String × Int)) (s : String) (v : Int),
    hGet (hSet l s v) s = v
  | [], s, v => by simp [hSet, hGet]
  | (k, w) :: tl, s, v => by
    simp only [hSet]
    by_cases hk : k = s
    · rw [if_pos hk]; simp [hGet]
    · rw [if_neg hk]; simp only [hGet, if_neg hk]; exact hGet_hSet_self tl s v

lemma hSet_hSet_self : ∀ (l : List (String × Int)) (s : String) (v v' : Int),
    hSet (hSet l s v) s v' = hSet l s v'
  | [], s, v, v' => by simp [hSet]
  | (k, w) :: tl, s, v, v' => by
    simp only [hSet]
    by_cases hk : k = s
    · rw [if_pos hk]; simp [hSet, hk]
    · rw [if_neg hk]; simp only [hSet, if_neg hk]; rw [hSet_hSet_self tl s v v']

lemma hGet_eq_zero_of_not_mem : ∀ {l : List (String × Int)} {s : String},
    s ∉ l.map Prod.fst → hGet l s = 0 := by
  intro l
  induction l with
  | nil => intro s _; rfl
  | cons hd tl ih =>
    intro s h
    obtain ⟨k, w⟩ := hd
    simp only [List.map_cons, List.mem_cons] at h
    push_neg at h
    simp only [hGet, if_neg (Ne.symm h.1)]
    exact ih h.2

lemma mem_fst_of_hGet_ne {l : List (String × Int)} {s : String}
    (h : hGet l s ≠ 0) : s ∈ l.map Prod.fst := by
  by_contra hc
  exact h (hGet_eq_zero_of_not_mem hc)

lemma hSet_hGet_eq_self : ∀ {l : List (String × Int)} {s : String},
    s ∈ l.map Prod.fst → hSet l s (hGet l s) = l := by
  intro l
  induction l with
  | nil => intro s h; simp at h
  | cons hd tl ih =>
    intro s h
    obtain ⟨k, w⟩ := hd
    by_cases hk : k = s
    · subst hk
      simp [hSet, hGet]
    · simp only [List.map_cons, List.mem_cons] at h
      rcases h with h1 | h2
      · exact absurd h1.symm hk
      · simp only [hSet, hGet, if_neg hk]
        rw [ih h2]

lemma hSet_of_not_mem : ∀ {l : List (String × Int)} {s : String} (v : Int),
    s ∉ l.map Prod.fst → hSet l s v = l ++ [(s, v)] := by
  intro l
  induction l with
  | nil => intro s v _; rfl
  | cons hd tl ih =>
    intro s v h
    obtain ⟨k, w⟩ := hd
    simp only [List.map_cons, List.mem_cons] at h
    push_neg at h
    simp only [hSet, if_neg (Ne.symm h.1), List.cons_append]
    rw [ih v h.2]

lemma hRemove_append_self : ∀ {l : List (String × Int)} {s : String} (v : Int),
    s ∉ l.map Prod.fst → hRemove (l ++ [(s, v)]) s = l := by
  intro l
  induction l with
  | nil => intro s v _; simp [hRemove]
  | cons hd tl ih =>
    intro s v h
    obtain ⟨k, w⟩ := hd
    simp only [List.map_cons, List.mem_cons] at h
    push_neg at h
    simp only [List.cons_append, hRemove, if_neg (Ne.symm h.1),
      List.append_eq]
    rw [ih v h.2]

lemma hRemove_sublist : ∀ (l : List (String × Int)) (s : String),
    (hRemove l s).Sublist l
  | [], _ => List.Sublist.refl []
  | (k, w) :: tl, s => by
    simp only [hRemove]
    by_cases hk : k = s
    · rw [if_pos hk]; exact List.sublist_cons_self _ _
    · rw [if_neg hk]; exact List.Sublist.cons₂ _ (hRemove_sublist tl s)

lemma mem_hRemove {l : List (String × Int)} {s : String} {x : String × Int}
    (h : x ∈ hRemove l s) : x ∈ l :=
  (hRemove_sublist l s).subset h

lemma mem_fst_hSet {l : List (String × Int)} {s x : String} {v : Int}
    (h : x ∈ (hSet l s v).map Prod.fst) : x ∈ l.map Prod.fst ∨ x = s := by
  rcases List.mem_map.mp h with ⟨p, hp, hx⟩
  rcases mem_hSet hp with h1 | h2
  · right; rw [← hx, h1]
  · left; exact List.mem_map.mpr ⟨p, h2, hx⟩

lemma nodup_fst_hSet : ∀ {l : List (String × Int)} (s : String) (v : Int),
    (l.map Prod.fst).Nodup → ((hSet l s v).map Prod.fst).Nodup := by
  intro l
  induction l with
  | nil => intro s v _; simp [hSet]
  | cons hd tl ih =>
    intro s v h
    obtain ⟨k, w⟩ := hd
    simp only [List.map_cons, List.nodup_cons] at h
    by_cases hk : k = s
    · simp only [hSet, if_pos hk, List.map_cons, List.nodup_cons]
      exact ⟨hk ▸ h.1, h.2⟩
    · simp only [hSet, if_neg hk, List.map_cons, List.nodup_cons]
      refine ⟨fun hc => ?_, ih s v h.2⟩
      rcases mem_fst_hSet hc with h1 | h2
      · exact h.1 h1
      · exact hk h2

lemma nodup_fst_hRemove {l : List (String × Int)} (s : String)
    (h : (l.map Prod.fst).Nodup) : ((hRemove l s).map Prod.fst).Nodup :=
  ((hRemove_sublist l s).map Prod.fst).nodup h

lemma not_mem_fst_hRemove : ∀ {l : List (String × Int)} {s : String},
    (l.map Prod.fst).Nodup → s ∉ (hRemove l s).map Prod.fst := by
  intro l
  induction l with
  | nil => intro s _; simp [hRemove]
  | cons hd tl ih =>
    intro s h
    obtain ⟨k, w⟩ := hd
    simp only [List.map_cons, List.nodup_cons] at h
    by_cases hk : k = s
    · simp only [hRemove, if_pos hk]
      exact hk ▸ h.1
    · simp only [hRemove, if_neg hk, List.map_cons, List.mem_cons]
      push_neg
      exact ⟨fun hc => hk hc.symm, ih h.2⟩

/-! ### Sums over the transaction log and catalog facts -/

lemma depositSum_append : ∀ (l : List Transaction) (t : Transaction),
    depositSum (l ++ [t]) =
      depositSum l + (if t.kind = TxKind.deposit then t.amount else 0)
  | [], t => by simp [depositSum]
  | u :: l, t => by
    simp only [List.cons_append, depositSum, List.append_eq]
    rw [depositSum_append l t]
    ring

lemma withdrawSum_append : ∀ (l : List Transaction) (t : Transaction),
    withdrawSum (l ++ [t]) =
      withdrawSum l + (if t.kind = TxKind.withdraw then t.amount else 0)
  | [], t => by simp [withdrawSum]
  | u :: l, t => by
    simp only [List.cons_append, withdrawSum, List.append_eq]
    rw [withdrawSum_append l t]
    ring

lemma withdrawSum_eq_zero : ∀ {l : List Transaction},
    (∀ t ∈ l, t.kind = TxKind.deposit) → withdrawSum l = 0 := by
  intro l
  induction l with
  | nil => intro _; rfl
  | cons u tl ih =>
    intro h
    have hu : u.kind = TxKind.deposit := h u (List.mem_cons_self _ _)
    simp only [withdrawSum, hu]
    rw [ih (fun t ht => h t (List.mem_cons_of_mem _ ht))]
    simp

lemma get_share_price_pos {s : String} {p : ℚ}
    (h : get_share_price s = some p) : 0 < p := by
  unfold get_share_price at h
  split at h
  · rw [Option.some_inj] at h; rw [← h]; norm_num
  · split at h
    · rw [Option.some_inj] at h; rw [← h]; norm_num
    · split at h
      · rw [Option.some_inj] at h; rw [← h]; norm_num
      · exact absurd h (by simp)

lemma holdingsValue_ok : ∀ {l : List (String × Int)},
    (∀ p ∈ l, (get_share_price p.1).isSome = true) →
    ∃ v : ℚ, holdingsValue l = Except.ok v := by
  intro l
  induction l with
  | nil => intro _; exact ⟨0, rfl⟩
  | cons hd tl ih =>
    intro h
    obtain ⟨s, q⟩ := hd
    have hs : (get_share_price s).isSome = true :=
      h (s, q) (List.mem_cons_self _ _)
    obtain ⟨p, hp⟩ := Option.isSome_iff_exists.mp hs
    obtain ⟨v, hv⟩ := ih (fun x hx => h x (List.mem_cons_of_mem _ hx))
    exact ⟨(q : ℚ) * p + v, by simp only [holdingsValue, hp, hv]⟩

/-! ### The reachable-state invariant -/

/-- The invariant the ledger maintains across all four operations. -/
structure AccountInv (a : Account) : Prop where
  cash_nonneg : 0 ≤ a.cash_balance
  holdings_pos : ∀ p ∈ a.holdings, 0 < p.2
  holdings_priced : ∀ p ∈ a.holdings, (get_share_price p.1).isSome = true
  keys_nodup : (a.holdings.map Prod.fst).Nodup
  lifetime_eq : a.initial_deposit = depositSum a.transactions
  deposits_only : (∀ t ∈ a.transactions, t.kind = TxKind.deposit) →
      a.holdings = [] ∧ a.cash_balance = a.initial_deposit

lemma inv_create (uid : String) : AccountInv (Account.create uid) := by
  refine ⟨le_refl 0, ?_, ?_, ?_, rfl, ?_⟩
  · intro p hp; exact absurd hp (List.not_mem_nil p)
  · intro p hp; exact absurd hp (List.not_mem_nil p)
  · simp [Account.create]
  · intro _; exact ⟨rfl, rfl⟩

lemma inv_deposit {a : Account} (h : AccountInv a) (amount : ℚ) :
    AccountInv (a.deposit amount).1 := by
  by_cases hc : amount ≤ 0
  · simp only [Account.deposit, if_pos hc]
    exact h
  · simp only [Account.deposit, if_neg hc]
    push_neg at hc
    refine ⟨by dsimp only; linarith [h.cash_nonneg], h.holdings_pos,
      h.holdings_priced, h.keys_nodup, ?_, ?_⟩
    · simp [depositSum_append, ← h.lifetime_eq]
    · intro hall
      have hall' : ∀ t ∈ a.transactions, t.kind = TxKind.deposit :=
        fun t ht => hall t (List.mem_append_left _ ht)
      obtain ⟨h1, h2⟩ := h.deposits_only hall'
      exact ⟨h1, by rw [h2]⟩

lemma inv_withdraw {a : Account} (h : AccountInv a) (amount : ℚ) :
    AccountInv (a.withdraw amount).1 := by
  by_cases hc : amount ≤ 0
  · simp only [Account.withdraw, if_pos hc]
    exact h
  · by_cases hb : a.cash_balance - amount < 0
    · simp only [Account.withdraw, if_neg hc, if_pos hb]
      exact h
    · simp only [Account.withdraw, if_neg hc, if_neg hb]
      push_neg at hb
      refine ⟨hb, h.holdings_pos, h.holdings_priced, h.keys_nodup, ?_, ?_⟩
      · simp [depositSum_append, ← h.lifetime_eq]
      · intro hall
        have := hall
          { kind := TxKind.withdraw
            amount := amount
            symbol := none
            quantity := none }
          (List.mem_append_right _ (List.mem_singleton_self _))
        simp at this

lemma inv_buy {a : Account} (h : AccountInv a) (symbol : String) (quantity : Int) :
    AccountInv (a.buy_shares symbol quantity).1 := by
  by_cases hq : quantity ≤ 0
  · simp only [Account.buy_shares, if_pos hq]
    exact h
  · rcases hp : get_share_price symbol with _ | price
    · simp only [Account.buy_shares, if_neg hq, hp]
      exact h
    · by_cases hb : price * (quantity : ℚ) > a.cash_balance
      · simp only [Account.buy_shares, if_neg hq, hp, if_pos hb]
        exact h
      · simp only [Account.buy_shares, if_neg hq, hp, if_neg hb]
        push_neg at hq hb
        refine ⟨by dsimp only; linarith [h.cash_nonneg], ?_, ?_,
          nodup_fst_hSet symbol _ h.keys_nodup, ?_, ?_⟩
        · intro p hm
          rcases mem_hSet hm with h1 | h2
          · rw [h1]
            have := hGet_nonneg a.holdings h.holdings_pos symbol
            simpa using by omega
          · exact h.holdings_pos p h2
        · intro p hm
          rcases mem_hSet hm with h1 | h2
          · rw [h1]; simp [hp]
          · exact h.holdings_priced p h2
        · simp [depositSum_append, ← h.lifetime_eq]
        · intro hall
          have := hall
            { kind := TxKind.buy
              amount := price * (quantity : ℚ)
              symbol := some symbol
              quantity := some quantity }
            (List.mem_append_right _ (List.mem_singleton_self _))
          simp at this

lemma inv_sell {a : Account} (h : AccountInv a) (symbol : String) (quantity : Int) :
    AccountInv (a.sell_shares symbol quantity).1 := by
  by_cases hq : quantity ≤ 0
  · simp only [Account.sell_shares, if_pos hq]
    exact h
  · by_cases hh : hGet a.holdings symbol < quantity
    · simp only [Account.sell_shares, if_neg hq, if_pos hh]
      exact h
    · rcases hp : get_share_price symbol with _ | price
      · simp only [Account.sell_shares, if_neg hq, if_neg hh, hp]
        exact h
      · simp only [Account.sell_shares, if_neg hq, if_neg hh, hp]
        push_neg at hq hh
        have hp0 : 0 < price := get_share_price_pos hp
        have hq0 : (0 : ℚ) ≤ (quantity : ℚ) := by exact_mod_cast le_of_lt hq
        refine ⟨?_, ?_, ?_, ?_, ?_, ?_⟩
        · have : 0 ≤ price * (quantity : ℚ) := mul_nonneg (le_of_lt hp0) hq0
          have := h.cash_nonneg
          dsimp only
          linarith
        · intro p hm
          dsimp only at hm
          by_cases hz : hGet a.holdings symbol - quantity = 0
          · rw [if_pos hz] at hm
            exact h.holdings_pos p (mem_hRemove hm)
          · rw [if_neg hz] at hm
            rcases mem_hSet hm with h1 | h2
            · rw [h1]; dsimp only; omega
            · exact h.holdings_pos p h2
        · intro p hm
          dsimp only at hm
          by_cases hz : hGet a.holdings symbol - quantity = 0
          · rw [if_pos hz] at hm
            exact h.holdings_priced p (mem_hRemove hm)
          · rw [if_neg hz] at hm
            rcases mem_hSet hm with h1 | h2
            · rw [h1]; simp [hp]
            · exact h.holdings_priced p h2
        · dsimp only
          by_cases hz : hGet a.holdings symbol - quantity = 0
          · rw [if_pos hz]
            exact nodup_fst_hRemove symbol h.keys_nodup
          · rw [if_neg hz]
            exact nodup_fst_hSet symbol _ h.keys_nodup
        · simp [depositSum_append, ← h.lifetime_eq]
        · intro hall
          have := hall
            { kind := TxKind.sell
              amount := price * (quantity : ℚ)
              symbol := some symbol
              quantity := some quantity }
            (List.mem_append_right _ (List.mem_singleton_self _))
          simp at this

lemma reachable_inv {a : Account} (h : Reachable a) : AccountInv a := by
  induction h with
  | init uid => exact inv_create uid
  | deposit amount _ ih => exact inv_deposit ih amount
  | withdraw amount _ ih => exact inv_withdraw ih amount
  | buy symbol quantity _ ih => exact inv_buy ih symbol quantity
  | sell symbol quantity _ ih => exact inv_sell ih symbol quantity

lemma hGet_mem : ∀ {l : List (String × Int)} {s : String},
    s ∈ l.map Prod.fst → (s, hGet l s) ∈ l := by
  intro l
  induction l with
  | nil => intro s h; simp at h
  | cons hd tl ih =>
    intro s h
    obtain ⟨k, w⟩ := hd
    by_cases hk : k = s
    · subst hk
      simp [hGet]
    · simp only [List.map_cons, List.mem_cons] at h
      rcases h with h1 | h2
      · exact absurd h1.symm hk
      · simp only [hGet, if_neg hk]
        exact List.mem_cons_of_mem _ (ih h2)

/-! ### Claim theorems -/

/-- Claim C3: for every account state, priced symbol `s` with price `p` and
quantity `q > 0`, `buy_shares s q` succeeds iff `p*q ≤ cash_balance`
(equality allowed), and on success `cash_balance` decreases by exactly
`p*q` while the held quantity of `s` increases by `q` (the entry is
created if absent). -/
theorem buy_shares_spec (a : Account) (s : String) (q : Int) (p : ℚ)
    (hq : 0 < q) (hp : get_share_price s = some p) :
    ((a.buy_shares s q).2 = none ↔ p * (q : ℚ) ≤ a.cash_balance) ∧
    (p * (q : ℚ) ≤ a.cash_balance →
      (a.buy_shares s q).1.cash_balance = a.cash_balance - p * (q : ℚ) ∧
      hGet (a.buy_shares s q).1.holdings s = hGet a.holdings s + q) := by
  have hq' : ¬ q ≤ 0 := not_le.mpr hq
  constructor
  · constructor
    · intro hnone
      by_contra hc
      push_neg at hc
      simp [Account.buy_shares, if_neg hq', hp, if_pos hc] at hnone
    · intro hc
      simp [Account.buy_shares, if_neg hq', hp, if_neg (not_lt.mpr hc)]
  · intro hc
    simp only [Account.buy_shares, if_neg hq', hp, if_neg (not_lt.mpr hc)]
    exact ⟨trivial, hGet_hSet_self _ _ _⟩

/-- Witness for C3: buying one AAPL share at price 150 with 300 cash. -/
theorem buy_shares_spec_witness :
    (0 : Int) < 1 ∧ get_share_price "AAPL" = some 150 ∧
    (((((Account.create "u").deposit 300).1).buy_shares "AAPL" 1).2 = none ↔
      (150 : ℚ) * ((1 : Int) : ℚ) ≤ (((Account.create "u").deposit 300).1).cash_balance) ∧
    ((150 : ℚ) * ((1 : Int) : ℚ) ≤ (((Account.create "u").deposit 300).1).cash_balance →
      ((((Account.create "u").deposit 300).1).buy_shares "AAPL" 1).1.cash_balance =
        (((Account.create "u").deposit 300).1).cash_balance - (150 : ℚ) * ((1 : Int) : ℚ) ∧
      hGet ((((Account.create "u").deposit 300).1).buy_shares "AAPL" 1).1.holdings "AAPL" =
        hGet (((Account.create "u").deposit 300).1).holdings "AAPL" + 1) :=
  ⟨by norm_num, by norm_num [get_share_price],
    buy_shares_spec _ "AAPL" 1 150 (by norm_num) (by norm_num [get_share_price])⟩

/-- Claim C4: `sell_shares` fails with `InvalidQuantity` when `q ≤ 0`; with
`InsufficientHoldings` when the held quantity (0 for an absent symbol) is
below `q`; and with `UnknownSymbol` when holdings suffice but the oracle
cannot price the symbol (the three checks run in this order); every
failure returns the state unchanged. -/
theorem sell_shares_failure_spec (a : Account) (s : String) (q : Int) :
    (q ≤ 0 → a.sell_shares s q = (a, some "Quantity must be a positive integer.")) ∧
    (0 < q → hGet a.holdings s < q →
      a.sell_shares s q = (a, some "Insufficient shares to sell.")) ∧
    (0 < q → q ≤ hGet a.holdings s → get_share_price s = none →
      a.sell_shares s q = (a, some "Unsupported symbol")) := by
  refine ⟨?_, ?_, ?_⟩
  · intro hq
    simp [Account.sell_shares, if_pos hq]
  · intro hq hh
    simp [Account.sell_shares, if_neg (not_le.mpr hq), if_pos hh]
  · intro hq hh hp
    simp [Account.sell_shares, if_neg (not_le.mpr hq), if_neg (not_lt.mpr hh), hp]

/-- Witness for C4: selling an unheld symbol on a fresh account fails with
the insufficient-holdings error and leaves the account unchanged. -/
theorem sell_shares_failure_spec_witness :
    (0 : Int) < 1 ∧ hGet (Account.create "u").holdings "ZZZZ" < 1 ∧
    (Account.create "u").sell_shares "ZZZZ" 1 =
      (Account.create "u", some "Insufficient shares to sell.") :=
  ⟨by norm_num, by norm_num [Account.create, hGet],
    (sell_shares_failure_spec (Account.create "u") "ZZZZ" 1).2.1 (by norm_num)
      (by norm_num [Account.create, hGet])⟩

/-- Claim C2: each of the four operations is atomic: on success it appends
exactly one transaction record; on failure it returns an error and leaves
the whole account state (cash, holdings, lifetime deposits, transactions)
unchanged; in particular withdrawing more than `cash_balance` fails with
`InsufficientFunds` and changes nothing. -/
theorem ops_atomic (a : Account) :
    (∀ amount : ℚ,
      ((a.deposit amount).2 = none →
        ∃ t, (a.deposit amount).1.transactions = a.transactions ++ [t]) ∧
      ((a.deposit amount).2 ≠ none → (a.deposit amount).1 = a)) ∧
    (∀ amount : ℚ,
      ((a.withdraw amount).2 = none →
        ∃ t, (a.withdraw amount).1.transactions = a.transactions ++ [t]) ∧
      ((a.withdraw amount).2 ≠ none → (a.withdraw amount).1 = a)) ∧
    (∀ (s : String) (q : Int),
      ((a.buy_shares s q).2 = none →
        ∃ t, (a.buy_shares s q).1.transactions = a.transactions ++ [t]) ∧
      ((a.buy_shares s q).2 ≠ none → (a.buy_shares s q).1 = a)) ∧
    (∀ (s : String) (q : Int),
      ((a.sell_shares s q).2 = none →
        ∃ t, (a.sell_shares s q).1.transactions = a.transactions ++ [t]) ∧
      ((a.sell_shares s q).2 ≠ none → (a.sell_shares s q).1 = a)) ∧
    (∀ amount : ℚ, 0 < amount → a.cash_balance < amount →
      a.withdraw amount = (a, some "Cannot withdraw more than the available balance.")) := by
  refine ⟨fun amount => ?_, fun amount => ?_, fun s q => ?_, fun s q => ?_,
    fun amount h1 h2 => ?_⟩
  · by_cases hc : amount ≤ 0
    · refine ⟨fun hn => ?_, fun _ => ?_⟩
      · simp [Account.deposit, hc] at hn
      · simp [Account.deposit, hc]
    · refine ⟨fun _ => ?_, fun hn => absurd ?_ hn⟩
      · exact ⟨{ kind := TxKind.deposit, amount := amount, symbol := none, quantity := none }, by simp only [Account.deposit, if_neg hc]⟩
      · simp [Account.deposit, hc]
  · by_cases hc : amount ≤ 0
    · refine ⟨fun hn => ?_, fun _ => ?_⟩
      · simp [Account.withdraw, hc] at hn
      · simp [Account.withdraw, hc]
    · by_cases hb : a.cash_balance - amount < 0
      · have hb' : a.cash_balance < amount := sub_neg.mp hb
        refine ⟨fun hn => ?_, fun _ => ?_⟩
        · simp [Account.withdraw, hc, hb'] at hn
        · simp [Account.withdraw, hc, hb']
      · have hb' : ¬ a.cash_balance < amount := fun hx => hb (sub_neg.mpr hx)
        refine ⟨fun _ => ?_, fun hn => absurd ?_ hn⟩
        · exact ⟨{ kind := TxKind.withdraw, amount := amount, symbol := none, quantity := none }, by simp only [Account.withdraw, if_neg hc, if_neg hb]⟩
        · simp [Account.withdraw, hc, hb']
  · by_cases hq : q ≤ 0
    · refine ⟨fun hn => ?_, fun _ => ?_⟩
      · simp [Account.buy_shares, hq] at hn
      · simp [Account.buy_shares, hq]
    · rcases hp : get_share_price s with _ | p
      · refine ⟨fun hn => ?_, fun _ => ?_⟩
        · simp [Account.buy_shares, hq, hp] at hn
        · simp [Account.buy_shares, hq, hp]
      · by_cases hb : p * (q : ℚ) > a.cash_balance
        · refine ⟨fun hn => ?_, fun _ => ?_⟩
          · simp [Account.buy_shares, hq, hp, hb] at hn
          · simp [Account.buy_shares, hq, hp, hb]
        · refine ⟨fun _ => ?_, fun hn => absurd ?_ hn⟩
          · exact ⟨{ kind := TxKind.buy, amount := p * (q : ℚ), symbol := some s, quantity := some q }, by simp only [Account.buy_shares, if_neg hq, hp, if_neg hb]⟩
          · simp [Account.buy_shares, hq, hp, hb]
  · by_cases hq : q ≤ 0
    · refine ⟨fun hn => ?_, fun _ => ?_⟩
      · simp [Account.sell_shares, hq] at hn
      · simp [Account.sell_shares, hq]
    · by_cases hh : hGet a.holdings s < q
      · refine ⟨fun hn => ?_, fun _ => ?_⟩
        · simp [Account.sell_shares, hq, hh] at hn
        · simp [Account.sell_shares, hq, hh]
      · rcases hp : get_share_price s with _ | p
        · refine ⟨fun hn => ?_, fun _ => ?_⟩
          · simp [Account.sell_shares, hq, hh, hp] at hn
          · simp [Account.sell_shares, hq, hh, hp]
        · refine ⟨fun _ => ?_, fun hn => absurd ?_ hn⟩
          · exact ⟨{ kind := TxKind.sell, amount := p * (q : ℚ), symbol := some s, quantity := some q }, by simp only [Account.sell_shares, if_neg hq, if_neg hh, hp]⟩
          · simp [Account.sell_shares, hq, hh, hp]
  · have h2' : a.cash_balance - amount < 0 := sub_neg.mpr h2
    simp [Account.withdraw, not_le.mpr h1, h2, h2']

/-- Witness for C2: withdrawing 50 from a fresh account (balance 0) fails
with the insufficient-funds error and leaves the account unchanged. -/
theorem ops_atomic_witness :
    (0 : ℚ) < 50 ∧ (Account.create "u").cash_balance < 50 ∧
    (Account.create "u").withdraw 50 =
      (Account.create "u", some "Cannot withdraw more than the available balance.") :=
  ⟨by norm_num, by norm_num [Account.create],
    (ops_atomic (Account.create "u")).2.2.2.2 50 (by norm_num)
      (by norm_num [Account.create])⟩

/-- Claim C5: starting from a fresh account, `cash_balance` is non-negative
after every operation, for every sequence of deposit/withdraw/buy/sell
calls, failed calls included. -/
theorem cash_balance_nonneg (a : Account) (h : Reachable a) :
    0 ≤ a.cash_balance :=
  (reachable_inv h).cash_nonneg

/-- Witness for C5 at a concrete reachable state (deposit 300 then
withdraw 100, with a failed withdrawal in between). -/
theorem cash_balance_nonneg_witness :
    0 ≤ ((((Account.create "u").deposit 300).1.withdraw 1000).1.withdraw 100).1.cash_balance :=
  cash_balance_nonneg _ (Reachable.withdraw 100 (Reachable.withdraw 1000
    (Reachable.deposit 300 (Reachable.init "u"))))

/-- Claim C6: in every reachable state every stored holdings quantity is
strictly positive; a sell of the entire held quantity removes the entry
from holdings; and `get_holdings` never exposes a non-positive entry, on
any account whatsoever. -/
theorem holdings_positive_spec (a : Account) (h : Reachable a) :
    (∀ p ∈ a.holdings, 0 < p.2) ∧
    (∀ (s : String) (q : Int), hGet a.holdings s = q →
      (a.sell_shares s q).2 = none →
      s ∉ ((a.sell_shares s q).1.holdings.map Prod.fst)) ∧
    (∀ b : Account, ∀ p ∈ b.get_holdings, 0 < p.2) := by
  refine ⟨(reachable_inv h).holdings_pos, ?_, ?_⟩
  · intro s q hq hsell
    by_cases h1 : q ≤ 0
    · simp [Account.sell_shares, h1] at hsell
    · by_cases h2 : hGet a.holdings s < q
      · simp [Account.sell_shares, h1, h2] at hsell
      · rcases hp : get_share_price s with _ | p
        · simp [Account.sell_shares, h1, h2, hp] at hsell
        · simp only [Account.sell_shares, if_neg h1, if_neg h2, hp]
          have hz : hGet a.holdings s - q = 0 := by rw [hq]; ring
          simp only [hz, if_pos rfl]
          exact not_mem_fst_hRemove (reachable_inv h).keys_nodup
  · intro b p hp
    simp only [Account.get_holdings, List.mem_filter, decide_eq_true_eq] at hp
    exact hp.2

/-- Witness for C6: after deposit 300 and buy AAPL 1, selling the whole
AAPL position removes the AAPL entry from holdings. -/
theorem holdings_positive_spec_witness :
    hGet ((((Account.create "u").deposit 300).1.buy_shares "AAPL" 1).1).holdings "AAPL" = 1 ∧
    (((((Account.create "u").deposit 300).1.buy_shares "AAPL" 1).1).sell_shares "AAPL" 1).2 = none ∧
    "AAPL" ∉ ((((((Account.create "u").deposit 300).1.buy_shares "AAPL" 1).1).sell_shares "AAPL" 1).1.holdings.map Prod.fst) :=
  ⟨by norm_num [Account.create, Account.deposit, Account.buy_shares,
      get_share_price, hGet, hSet],
   by norm_num [Account.create, Account.deposit, Account.buy_shares,
      Account.sell_shares, get_share_price, hGet, hSet, hRemove],
   (holdings_positive_spec _ (Reachable.buy "AAPL" 1 (Reachable.deposit 300
      (Reachable.init "u")))).2.1 "AAPL" 1
     (by norm_num [Account.create, Account.deposit, Account.buy_shares,
        get_share_price, hGet, hSet])
     (by norm_num [Account.create, Account.deposit, Account.buy_shares,
        Account.sell_shares, get_share_price, hGet, hSet, hRemove])⟩

/-- Claim C7: in every reachable state `initial_deposit` (the spec's
`lifetime_deposits`) equals the sum of the amounts of all deposit
transactions; it never decreases under `deposit` and is left unchanged by
`withdraw`, `buy_shares` and `sell_shares`. -/
theorem lifetime_deposits_spec (a : Account) (h : Reachable a) :
    a.initial_deposit = depositSum a.transactions ∧
    (∀ amount : ℚ, a.initial_deposit ≤ (a.deposit amount).1.initial_deposit) ∧
    (∀ amount : ℚ, (a.withdraw amount).1.initial_deposit = a.initial_deposit) ∧
    (∀ (s : String) (q : Int),
      (a.buy_shares s q).1.initial_deposit = a.initial_deposit) ∧
    (∀ (s : String) (q : Int),
      (a.sell_shares s q).1.initial_deposit = a.initial_deposit) := by
  refine ⟨(reachable_inv h).lifetime_eq, ?_, ?_, ?_, ?_⟩
  · intro amount
    by_cases hc : amount ≤ 0
    · simp [Account.deposit, hc]
    · simp only [Account.deposit, if_neg hc]
      push_neg at hc
      linarith
  · intro amount
    by_cases hc : amount ≤ 0
    · simp [Account.withdraw, hc]
    · by_cases hb : a.cash_balance - amount < 0
      · have hb' : a.cash_balance < amount := sub_neg.mp hb
        simp [Account.withdraw, hc, hb']
      · have hb' : ¬ a.cash_balance < amount := fun hx => hb (sub_neg.mpr hx)
        simp [Account.withdraw, hc, hb']
  · intro s q
    by_cases hq : q ≤ 0
    · simp [Account.buy_shares, hq]
    · rcases hp : get_share_price s with _ | p
      · simp [Account.buy_shares, hq, hp]
      · by_cases hb : p * (q : ℚ) > a.cash_balance
        · simp [Account.buy_shares, hq, hp, hb]
        · simp [Account.buy_shares, hq, hp, hb]
  · intro s q
    by_cases hq : q ≤ 0
    · simp [Account.sell_shares, hq]
    · by_cases hh : hGet a.holdings s < q
      · simp [Account.sell_shares, hq, hh]
      · rcases hp : get_share_price s with _ | p
        · simp [Account.sell_shares, hq, hh, hp]
        · simp [Account.sell_shares, hq, hh, hp]

/-- Witness for C7 at the state reached by deposit 300 then withdraw 100. -/
theorem lifetime_deposits_spec_witness :
    ((((Account.create "u").deposit 300).1.withdraw 100).1).initial_deposit =
      depositSum ((((Account.create "u").deposit 300).1.withdraw 100).1).transactions :=
  (lifetime_deposits_spec _ (Reachable.withdraw 100 (Reachable.deposit 300
    (Reachable.init "u")))).1

/-- Claim C8: in every reachable state `get_profit_loss` returns the
portfolio value minus net deposits (`initial_deposit` minus the sum of all
withdraw-transaction amounts), and after a history containing only deposit
transactions it returns exactly 0. -/
theorem profit_loss_spec (a : Account) (h : Reachable a) :
    (∀ v : ℚ, a.get_portfolio_value = Except.ok v →
      a.get_profit_loss =
        Except.ok (v - (a.initial_deposit - withdrawSum a.transactions))) ∧
    ((∀ t ∈ a.transactions, t.kind = TxKind.deposit) →
      a.get_profit_loss = Except.ok 0) := by
  constructor
  · intro v hv
    simp [Account.get_profit_loss, hv]
  · intro hall
    obtain ⟨hh, hc⟩ := (reachable_inv h).deposits_only hall
    have hw : withdrawSum a.transactions = 0 := withdrawSum_eq_zero hall
    simp only [Account.get_profit_loss, Account.get_portfolio_value, hh,
      holdingsValue, hw, hc]
    norm_num

/-- Witness for C8: after two deposits and no trades, profit/loss is 0. -/
theorem profit_loss_spec_witness :
    (∀ t ∈ ((((Account.create "u").deposit 300).1.deposit 200).1).transactions,
      t.kind = TxKind.deposit) ∧
    ((((Account.create "u").deposit 300).1.deposit 200).1).get_profit_loss =
      Except.ok 0 :=
  ⟨by norm_num [Account.create, Account.deposit],
   (profit_loss_spec _ (Reachable.deposit 200 (Reachable.deposit 300
      (Reachable.init "u")))).2
     (by norm_num [Account.create, Account.deposit])⟩

/-- Claim C10: in every reachable state every held symbol is priceable by
the oracle, so the reporting accessors `get_portfolio_value` and
`get_profit_loss` always return a value and never hit the unknown-symbol
error. -/
theorem reporting_accessors_ok (a : Account) (h : Reachable a) :
    (∀ p ∈ a.holdings, (get_share_price p.1).isSome = true) ∧
    (∃ v : ℚ, a.get_portfolio_value = Except.ok v) ∧
    (∃ w : ℚ, a.get_profit_loss = Except.ok w) := by
  have hpr := (reachable_inv h).holdings_priced
  obtain ⟨v, hv⟩ := holdingsValue_ok hpr
  refine ⟨hpr, ⟨a.cash_balance + v, ?_⟩,
    ⟨a.cash_balance + v - (a.initial_deposit - withdrawSum a.transactions), ?_⟩⟩
  · simp [Account.get_portfolio_value, hv]
  · simp [Account.get_profit_loss, Account.get_portfolio_value, hv]

/-- Witness for C10 at the state reached by deposit 300 then buy AAPL 1. -/
theorem reporting_accessors_ok_witness :
    (∃ v : ℚ, ((((Account.create "u").deposit 300).1.buy_shares "AAPL" 1).1).get_portfolio_value = Except.ok v) ∧
    (∃ w : ℚ, ((((Account.create "u").deposit 300).1.buy_shares "AAPL" 1).1).get_profit_loss = Except.ok w) :=
  ⟨(reporting_accessors_ok _ (Reachable.buy "AAPL" 1 (Reachable.deposit 300
      (Reachable.init "u")))).2.1,
   (reporting_accessors_ok _ (Reachable.buy "AAPL" 1 (Reachable.deposit 300
      (Reachable.init "u")))).2.2⟩

/-- Counterexample to C1 as stated: with AAPL already held (deposit 300,
buy AAPL 1), a further buy AAPL 1 followed by sell AAPL 1 succeeds and
restores the cash balance exactly, yet AAPL is NOT removed from holdings:
the entry returns to its prior quantity 1. -/
theorem buy_sell_roundtrip_cx :
    ((((((Account.create "u").deposit 300).1.buy_shares "AAPL" 1).1).buy_shares "AAPL" 1).2 = none) ∧
    (((((((Account.create "u").deposit 300).1.buy_shares "AAPL" 1).1).buy_shares "AAPL" 1).1.sell_shares "AAPL" 1).2 = none) ∧
    (((((((Account.create "u").deposit 300).1.buy_shares "AAPL" 1).1).buy_shares "AAPL" 1).1.sell_shares "AAPL" 1).1.cash_balance =
      ((((Account.create "u").deposit 300).1.buy_shares "AAPL" 1).1).cash_balance) ∧
    "AAPL" ∈ ((((((((Account.create "u").deposit 300).1.buy_shares "AAPL" 1).1).buy_shares "AAPL" 1).1.sell_shares "AAPL" 1).1.holdings.map Prod.fst)) := by
  norm_num [Account.create, Account.deposit, Account.buy_shares,
    Account.sell_shares, get_share_price, hGet, hSet, hRemove]

/-- Claim C1 (amended): in a reachable state, after a successful
`buy_shares s q` an immediate `sell_shares s q` at the unchanged price
succeeds, restores `cash_balance` to its exact prior value with no
rounding drift, and restores `holdings` exactly; `s` ends up absent from
holdings precisely when it was absent before the buy. -/
theorem buy_sell_roundtrip (a b : Account) (s : String) (q : Int)
    (h : Reachable a) (hbuy : a.buy_shares s q = (b, none)) :
    (b.sell_shares s q).2 = none ∧
    (b.sell_shares s q).1.cash_balance = a.cash_balance ∧
    (b.sell_shares s q).1.holdings = a.holdings ∧
    (s ∉ a.holdings.map Prod.fst →
      s ∉ (b.sell_shares s q).1.holdings.map Prod.fst) := by
  by_cases hq : q ≤ 0
  · simp [Account.buy_shares, hq, Prod.ext_iff] at hbuy
  · rcases hp : get_share_price s with _ | p
    · simp [Account.buy_shares, hq, hp, Prod.ext_iff] at hbuy
    · by_cases hb : p * (q : ℚ) > a.cash_balance
      · simp [Account.buy_shares, hq, hp, hb, Prod.ext_iff] at hbuy
      · have key :
            ({ a with
                cash_balance := a.cash_balance - p * (q : ℚ)
                holdings := hSet a.holdings s (hGet a.holdings s + q)
                transactions := a.transactions ++
                  [{ kind := TxKind.buy
                     amount := p * (q : ℚ)
                     symbol := some s
                     quantity := some q }] },
              (none : Option String)) = (b, none) := by
          rw [← hbuy]
          simp only [Account.buy_shares, if_neg hq, hp, if_neg hb]
        have hb_cash : b.cash_balance = a.cash_balance - p * (q : ℚ) :=
          (congrArg (fun x => (Prod.fst x).cash_balance) key).symm
        have hb_hold : b.holdings = hSet a.holdings s (hGet a.holdings s + q) :=
          (congrArg (fun x => (Prod.fst x).holdings) key).symm
        have hg0 : 0 ≤ hGet a.holdings s :=
          hGet_nonneg _ (reachable_inv h).holdings_pos s
        have hqpos : 0 < q := lt_of_not_le hq
        have h2' : ¬ (hGet a.holdings s + q < q) := by omega
        have h3 :
            (if hGet a.holdings s = 0 then
                hRemove (hSet a.holdings s (hGet a.holdings s + q)) s
              else hSet (hSet a.holdings s (hGet a.holdings s + q)) s
                (hGet a.holdings s)) = a.holdings := by
          by_cases hz : hGet a.holdings s = 0
          · rw [if_pos hz]
            have hnm : s ∉ a.holdings.map Prod.fst := by
              intro hmem
              have hpos := (reachable_inv h).holdings_pos _ (hGet_mem hmem)
              dsimp only at hpos
              omega
            rw [hSet_of_not_mem _ hnm, hz, hRemove_append_self _ hnm]
          · rw [if_neg hz, hSet_hSet_self,
              hSet_hGet_eq_self (mem_fst_of_hGet_ne hz)]
        refine ⟨?_, ?_, ?_, ?_⟩
        · simp only [Account.sell_shares, hb_hold, hGet_hSet_self,
            if_neg hq, if_neg h2', hp]
        · simp only [Account.sell_shares, hb_hold, hb_cash, hGet_hSet_self,
            if_neg hq, if_neg h2', hp]
          ring
        · simp only [Account.sell_shares, hb_hold, hGet_hSet_self,
            if_neg hq, if_neg h2', hp, add_sub_cancel_right]
          exact h3
        · intro hs
          simp only [Account.sell_shares, hb_hold, hGet_hSet_self,
            if_neg hq, if_neg h2', hp, add_sub_cancel_right]
          rw [h3]
          exact hs

/-- Witness for the amended C1: deposit 300, buy AAPL 1, sell AAPL 1
restores cash to 300 and holdings to empty. -/
theorem buy_sell_roundtrip_witness :
    (((((Account.create "u").deposit 300).1.buy_shares "AAPL" 1).1.sell_shares "AAPL" 1).2 = none) ∧
    (((((Account.create "u").deposit 300).1.buy_shares "AAPL" 1).1.sell_shares "AAPL" 1).1.cash_balance =
      (((Account.create "u").deposit 300).1).cash_balance) ∧
    (((((Account.create "u").deposit 300).1.buy_shares "AAPL" 1).1.sell_shares "AAPL" 1).1.holdings =
      (((Account.create "u").deposit 300).1).holdings) ∧
    ("AAPL" ∉ ((((Account.create "u").deposit 300).1).holdings.map Prod.fst) →
      "AAPL" ∉ ((((((Account.create "u").deposit 300).1.buy_shares "AAPL" 1).1.sell_shares "AAPL" 1).1.holdings.map Prod.fst))) :=
  buy_sell_roundtrip _ _ "AAPL" 1 (Reachable.deposit 300 (Reachable.init "u"))
    (by norm_num [Account.create, Account.deposit, Account.buy_shares,
      get_share_price, hGet, hSet])

/-- Counterexample to C9 as stated: the core's `buy_shares` does not
case-normalize its symbol: "aapl" is unpriced and the buy fails with the
unsupported-symbol error, while "AAPL" is priced at 150 and the same buy
succeeds. -/
theorem case_normalization_cx :
    get_share_price "aapl" = none ∧
    get_share_price "AAPL" = some 150 ∧
    ((((Account.create "u").deposit 300).1.buy_shares "aapl" 1).2 = some "Unsupported symbol") ∧
    ((((Account.create "u").deposit 300).1.buy_shares "AAPL" 1).2 = none) := by
  norm_num [Account.create, Account.deposit, Account.buy_shares,
    get_share_price, hGet, hSet,
    show ("aapl" : String) ≠ "AAPL" from by decide,
    show ("aapl" : String) ≠ "TSLA" from by decide,
    show ("aapl" : String) ≠ "GOOGL" from by decide]

/-- Claim C9 (amended): case normalization happens in the UI layer, not
the core: the core passes symbols to the oracle verbatim, so "aapl" is
unpriced; the app-layer wrappers upper-case the symbol before calling the
core, so at that boundary "aapl" and "AAPL" behave identically. -/
theorem case_normalization_app (a : Account) (q : Int) :
    app_buy_shares a "aapl" q = app_buy_shares a "AAPL" q ∧
    app_sell_shares a "aapl" q = app_sell_shares a "AAPL" q ∧
    get_share_price "aapl" = none := by
  have hu : pyUpper "aapl" = pyUpper "AAPL" := by decide
  refine ⟨?_, ?_, ?_⟩
  · simp only [app_buy_shares, hu]
  · simp only [app_sell_shares, hu]
  · simp [get_share_price,
      show ("aapl" : String) ≠ "AAPL" from by decide,
      show ("aapl" : String) ≠ "TSLA" from by decide,
      show ("aapl" : String) ≠ "GOOGL" from by decide]
